import Mathlib

/-!
Verification of the arrays module of the data-structures-and-algorithms
course repository (Rust sources under
`src/structures/01-arrays/implementations/rust/src/`).

The Rust code is shallowly embedded: a container's raw buffer is modelled
by the list of its initialized elements (the prefix `[0, length)`), with
`capacity` carried alongside, since the claims under scrutiny concern
lengths, capacities and element values, never raw addresses.  Machine
integers (`usize`) are modelled as `Nat`; the element type is fixed to
`Int` (the Rust code is generic, its tests instantiate integers).
Panicking paths are modelled with `Except Unit`, and Rust's
`Option`-propagating `?` operator with explicit `Option` matches.
-/

namespace Arrays

/-- Model of `DynamicArray<T>` from `dynamic_array.rs`: `ptr`/`len` are
replaced by `data`, the list of the `len` initialized elements; `capacity`
is kept verbatim. -/
structure DynamicArray where
  capacity : Nat
  data : List Int
deriving Repr, DecidableEq

/-- `DynamicArray::new`: capacity 0, no allocation, length 0. -/
def DynamicArray.new : DynamicArray := ⟨0, []⟩

/-- `DynamicArray::with_capacity`: `capacity == 0` behaves like `new`,
otherwise an allocation of `capacity` slots, length 0. -/
def DynamicArray.withCapacity (capacity : Nat) : DynamicArray :=
  if capacity = 0 then DynamicArray.new else ⟨capacity, []⟩

/-- `DynamicArray::grow`: new capacity is 1 when the current capacity is 0,
else the current capacity doubled.  The Rust `checked_mul(2)` cannot
overflow in the `Nat` model, so the overflow-panic branch is absent. -/
def DynamicArray.grow (s : DynamicArray) : DynamicArray :=
  ⟨if s.capacity = 0 then 1 else s.capacity * 2, s.data⟩

/-- `DynamicArray::push`: grow when `len == capacity`, then write at
position `len` and increment `len`.  No error is ever returned. -/
def DynamicArray.push (s : DynamicArray) (value : Int) : DynamicArray :=
  let s' := if s.data.length = s.capacity then s.grow else s
  ⟨s'.capacity, s'.data ++ [value]⟩

/-- `DynamicArray::pop`: `None` on empty, else remove and return the last
element (length is decremented before the slot is read). -/
def DynamicArray.pop (s : DynamicArray) : DynamicArray × Option Int :=
  if s.data.length = 0 then (s, none)
  else (⟨s.capacity, s.data.dropLast⟩, s.data.getLast?)

/-- `DynamicArray::get`: `None` when `index >= len`, else the element. -/
def DynamicArray.get (s : DynamicArray) (index : Nat) : Option Int :=
  if index ≥ s.data.length then none else s.data[index]?

/-- `DynamicArray::clear`: `while self.pop().is_some() {}` — pops every
element, leaving the allocation (capacity) untouched and the data empty. -/
def DynamicArray.clear (s : DynamicArray) : DynamicArray :=
  ⟨s.capacity, []⟩

/-- `DynamicArray::shrink_to_fit`, with the source's branch order: first
the `len > 0 && len < capacity / 4 && capacity > 4` reallocation branch
(the `realloc` keeps the first `new_capacity ≥ len` slots, hence `data` is
preserved), then the `len == 0 && capacity > 0` full-deallocation branch,
else a no-op. -/
def DynamicArray.shrinkToFit (s : DynamicArray) : DynamicArray :=
  if 0 < s.data.length ∧ s.data.length < s.capacity / 4 ∧ 4 < s.capacity then
    ⟨max (s.capacity / 2) s.data.length, s.data⟩
  else if s.data.length = 0 ∧ 0 < s.capacity then
    ⟨0, s.data⟩
  else s

/-- `Extend::extend` for `DynamicArray`: repeated `push`. -/
def DynamicArray.extend (s : DynamicArray) (values : List Int) : DynamicArray :=
  values.foldl DynamicArray.push s

/-- Model of the fixed-capacity `Array<T>` from `core.rs` (named `Array`
inside this namespace; the buffer is again the list of initialized
elements). -/
structure Array where
  capacity : Nat
  data : List Int
deriving Repr, DecidableEq

/-- `Array::new(capacity)`: panics when `capacity == 0` (modelled as
`.error ()`), else an empty array of that capacity. -/
def Array.new (capacity : Nat) : Except Unit Array :=
  if capacity = 0 then .error () else .ok ⟨capacity, []⟩

/-- `Array::push`: returns `Err(value)` when `len >= capacity` (the state
is left untouched), else writes at position `len` and increments `len`. -/
def Array.push (a : Array) (value : Int) : Array × Except Int Unit :=
  if a.data.length ≥ a.capacity then (a, .error value)
  else (⟨a.capacity, a.data ++ [value]⟩, .ok ())

/-- `Array::set`: asserts `index < len` (panic otherwise); then
`ptr.read()` drops the old occupant and `ptr.write` stores the new value.
The second component of the result collects the values released by the
operation, so that "dropped exactly once" is visible in the model. -/
def Array.set (a : Array) (index : Nat) (value : Int) :
    Except Unit (Array × List Int) :=
  if index < a.data.length then
    .ok (⟨a.capacity, a.data.set index value⟩, [a.data.getD index 0])
  else .error ()

/-- The `array.push(item.clone()).ok()?` loop of `Array::from_slice`:
an `Err` from `push` becomes `None` and aborts the whole construction. -/
def Array.pushAll (a : Array) (items : List Int) : Option Array :=
  match items with
  | [] => some a
  | item :: rest =>
    match Array.push a item with
    | (_, .error _) => none
    | (a', .ok _) => Array.pushAll a' rest

/-- `Array::from_slice(slice, capacity)`: returns `None` when the slice is
longer than `capacity`; otherwise delegates to `Array::new(capacity)`
(which panics on capacity 0) and pushes each element. -/
def Array.fromSlice (slice : List Int) (capacity : Nat) :
    Except Unit (Option Array) :=
  if slice.length > capacity then .ok none
  else
    match Array.new capacity with
    | .error e => .error e
    | .ok a => .ok (Array.pushAll a slice)

/-!
Search algorithms from `algorithms/binary_search.rs` and
`algorithms/jump_search.rs`.  They operate on any container exposing
`len()`/`get(i)`; since both container models store their elements as the
list `data`, the algorithms are embedded as functions on `List Int`.
`self.get(mid)?` (which propagates an absent slot as an overall `None`)
is modelled as a match on `xs[mid]?`.
-/

/-- The `while low <= high` loop of `binary_search` (inclusive bounds,
`mid = low + (high - low) / 2`, break when `mid == 0` on Greater). -/
def bsLoop (xs : List Int) (target : Int) (low high : Nat) : Option Nat :=
  if _h : low ≤ high then
    match xs[low + (high - low) / 2]? with
    | none => none
    | some v =>
      if v = target then some (low + (high - low) / 2)
      else if v < target then bsLoop xs target (low + (high - low) / 2 + 1) high
      else if low + (high - low) / 2 = 0 then none
      else bsLoop xs target low (low + (high - low) / 2 - 1)
  else none
termination_by high + 1 - low
decreasing_by all_goals omega

/-- `binary_search`: `None` on an empty container, else the inclusive
`[0, len - 1]` loop. -/
def binarySearch (xs : List Int) (target : Int) : Option Nat :=
  if xs.length = 0 then none else bsLoop xs target 0 (xs.length - 1)

/-- The loop of `binary_search_first`: on Equal, record the index and keep
narrowing toward the left bound. -/
def bsFirstLoop (xs : List Int) (target : Int) (low high : Nat)
    (result : Option Nat) : Option Nat :=
  if _h : low ≤ high then
    match xs[low + (high - low) / 2]? with
    | none => none
    | some v =>
      if v = target then
        if low + (high - low) / 2 = 0 then some (low + (high - low) / 2)
        else bsFirstLoop xs target low (low + (high - low) / 2 - 1)
          (some (low + (high - low) / 2))
      else if v < target then
        bsFirstLoop xs target (low + (high - low) / 2 + 1) high result
      else if low + (high - low) / 2 = 0 then result
      else bsFirstLoop xs target low (low + (high - low) / 2 - 1) result
  else result
termination_by high + 1 - low
decreasing_by all_goals omega

/-- `binary_search_first`: empty guard plus `bsFirstLoop`. -/
def binarySearchFirst (xs : List Int) (target : Int) : Option Nat :=
  if xs.length = 0 then none else bsFirstLoop xs target 0 (xs.length - 1) none

/-- The loop of `binary_search_last`: on Equal, record the index and keep
narrowing toward the right bound (`low = mid + 1`). -/
def bsLastLoop (xs : List Int) (target : Int) (low high : Nat)
    (result : Option Nat) : Option Nat :=
  if _h : low ≤ high then
    match xs[low + (high - low) / 2]? with
    | none => none
    | some v =>
      if v = target then
        bsLastLoop xs target (low + (high - low) / 2 + 1) high
          (some (low + (high - low) / 2))
      else if v < target then
        bsLastLoop xs target (low + (high - low) / 2 + 1) high result
      else if low + (high - low) / 2 = 0 then result
      else bsLastLoop xs target low (low + (high - low) / 2 - 1) result
  else result
termination_by high + 1 - low
decreasing_by all_goals omega

/-- `binary_search_last`: empty guard plus `bsLastLoop`. -/
def binarySearchLast (xs : List Int) (target : Int) : Option Nat :=
  if xs.length = 0 then none else bsLastLoop xs target 0 (xs.length - 1) none

/-- The half-open `[low, high)` loop of `binary_search_insertion_point`:
`Some(elem) if elem < target` moves `low` past `mid`, anything else
(including an absent slot) pulls `high` down to `mid`. -/
def ipLoop (xs : List Int) (target : Int) (low high : Nat) : Nat :=
  if _h : low < high then
    match xs[low + (high - low) / 2]? with
    | some v =>
      if v < target then ipLoop xs target (low + (high - low) / 2 + 1) high
      else ipLoop xs target low (low + (high - low) / 2)
    | none => ipLoop xs target low (low + (high - low) / 2)
  else low
termination_by high - low
decreasing_by all_goals omega

/-- `binary_search_insertion_point`: 0 on an empty container, else the
half-open loop with `high = len` initially. -/
def binarySearchInsertionPoint (xs : List Int) (target : Int) : Nat :=
  if xs.length = 0 then 0 else ipLoop xs target 0 xs.length

/-- `optimal_jump_size`: 0 for `n == 0`, else `ceil(sqrt(n))` (the Rust
code computes it through `f64`, exact for every representable `usize`
block size here), floored at 1. -/
def optimalJumpSize (n : Nat) : Nat :=
  if n = 0 then 0
  else
    let s := if Nat.sqrt n * Nat.sqrt n = n then Nat.sqrt n else Nat.sqrt n + 1
    max s 1

/-- The block-advance loop of `jump_search_with_size`.  The loop body sets
`prev = curr + 1`, `curr = min(curr + jump_size, n - 1)` and then runs the
early-exit check `if curr == n - 1 && prev > n - jump_size { break }`.
`n - jump_size` is a `usize` subtraction: when `jump_size > n` it
underflows, a panic (modelled as `.error ()`); Rust's `&&` only reaches it
when `curr == n - 1`. -/
def jsLoop (xs : List Int) (target : Int) (jumpSize : Nat)
    (hj : 0 < jumpSize) (prev curr : Nat) : Except Unit (Nat × Nat) :=
  if h : curr < xs.length ∧ xs.getD curr 0 < target then
    if min (curr + jumpSize) (xs.length - 1) = xs.length - 1 then
      if xs.length < jumpSize then .error ()
      else if xs.length - jumpSize < curr + 1 then
        .ok (curr + 1, min (curr + jumpSize) (xs.length - 1))
      else jsLoop xs target jumpSize hj (curr + 1)
        (min (curr + jumpSize) (xs.length - 1))
    else jsLoop xs target jumpSize hj (curr + 1)
      (min (curr + jumpSize) (xs.length - 1))
  else .ok (prev, curr)
termination_by xs.length - curr
decreasing_by all_goals omega

/-- The linear-scan phase of `jump_search_with_size`:
`while prev <= curr && prev < n`, returning on Equal, aborting on
Greater, advancing on Less. -/
def linLoop (xs : List Int) (target : Int) (curr prev : Nat) : Option Nat :=
  if _h : prev ≤ curr ∧ prev < xs.length then
    match xs[prev]? with
    | none => none
    | some v =>
      if v = target then some prev
      else if target < v then none
      else linLoop xs target curr (prev + 1)
  else none
termination_by curr + 1 - prev
decreasing_by omega

/-- `jump_search_with_size`: `None` when the container is empty or
`jump_size == 0`; otherwise the jump phase starting from `prev = 0`,
`curr = min(jump_size, n) - 1`, then the linear phase. -/
def jumpSearchWithSize (xs : List Int) (target : Int) (jumpSize : Nat) :
    Except Unit (Option Nat) :=
  if h : xs.length = 0 ∨ jumpSize = 0 then .ok none
  else
    match jsLoop xs target jumpSize (by omega) 0 (min jumpSize xs.length - 1) with
    | .error e => .error e
    | .ok (prev, curr) => .ok (linLoop xs target curr prev)

/-- `jump_search`: `None` on empty, else `jump_search_with_size` with the
optimal `ceil(sqrt(n))` jump size. -/
def jumpSearch (xs : List Int) (target : Int) : Except Unit (Option Nat) :=
  if xs.length = 0 then .ok none
  else jumpSearchWithSize xs target (optimalJumpSize xs.length)

/-!
An operation alphabet for the Growable Container, used for the
whole-lifecycle invariant claims.
-/

/-- One public operation of `DynamicArray` (queries included). -/
inductive Op where
  | newOp : Op
  | withCapacity : Nat → Op
  | push : Int → Op
  | pop : Op
  | get : Nat → Op
  | getMut : Nat → Op
  | clear : Op
  | shrinkToFit : Op
  | extend : List Int → Op

/-- The state transition of one operation (queries leave the state as is;
`get_mut` hands out a reference, the container fields are untouched). -/
def applyOp (s : DynamicArray) : Op → DynamicArray
  | .newOp => DynamicArray.new
  | .withCapacity n => DynamicArray.withCapacity n
  | .push v => s.push v
  | .pop => (s.pop).1
  | .get _ => s
  | .getMut _ => s
  | .clear => s.clear
  | .shrinkToFit => s.shrinkToFit
  | .extend vs => s.extend vs

/-- Run a sequence of operations from a starting state. -/
def runOps (s : DynamicArray) (ops : List Op) : DynamicArray :=
  ops.foldl applyOp s

/-- The capacity invariant that accompanies an uninterrupted run of pushes
from `new`: either nothing was pushed yet (capacity 0), or the capacity is
a power of two in `[len, 2 * len)`. -/
def GrowthInv (s : DynamicArray) : Prop :=
  (s.data.length = 0 ∧ s.capacity = 0) ∨
  ((∃ j, s.capacity = 2 ^ j) ∧ s.data.length ≤ s.capacity ∧
    s.capacity < 2 * s.data.length)

/-- The basic length/capacity invariant of either container. -/
def LenInv (s : DynamicArray) : Prop := s.data.length ≤ s.capacity

/-! Basic facts about `push`, `extend` and the container invariants. -/

theorem DynamicArray.push_data (s : DynamicArray) (v : Int) :
    (s.push v).data = s.data ++ [v] := by
  simp only [DynamicArray.push, DynamicArray.grow]
  split <;> rfl

theorem DynamicArray.push_len (s : DynamicArray) (v : Int) :
    (s.push v).data.length = s.data.length + 1 := by
  simp [DynamicArray.push_data]

theorem DynamicArray.push_capacity (s : DynamicArray) (v : Int) :
    (s.push v).capacity =
      if s.data.length = s.capacity then
        (if s.capacity = 0 then 1 else s.capacity * 2)
      else s.capacity := by
  simp only [DynamicArray.push, DynamicArray.grow]
  split <;> rfl

theorem growthInv_push {s : DynamicArray} (hs : GrowthInv s) (v : Int) :
    GrowthInv (s.push v) := by
  have hlen := DynamicArray.push_len s v
  have hcap := DynamicArray.push_capacity s v
  rcases hs with ⟨h0, hc0⟩ | ⟨⟨j, hj⟩, hle, hlt⟩
  · right
    rw [hcap, if_pos (by omega), if_pos hc0]
    exact ⟨⟨0, rfl⟩, by omega⟩
  · right
    have hcpos : 0 < s.capacity := hj ▸ Nat.pos_pow_of_pos j (by omega)
    by_cases hfull : s.data.length = s.capacity
    · rw [hcap, if_pos hfull, if_neg (by omega)]
      refine ⟨⟨j + 1, by rw [pow_succ, hj]⟩, by omega⟩
    · rw [hcap, if_neg hfull]
      exact ⟨⟨j, hj⟩, by omega⟩

theorem growthInv_extend {s : DynamicArray} (hs : GrowthInv s)
    (vs : List Int) : GrowthInv (s.extend vs) := by
  induction vs generalizing s with
  | nil => exact hs
  | cons v rest ih =>
    simpa [DynamicArray.extend] using ih (growthInv_push hs v)

theorem DynamicArray.extend_len (s : DynamicArray) (vs : List Int) :
    (s.extend vs).data.length = s.data.length + vs.length := by
  induction vs generalizing s with
  | nil => simp [DynamicArray.extend]
  | cons v rest ih =>
    have h1 : s.extend (v :: rest) = (s.push v).extend rest := rfl
    rw [h1, ih (s.push v), DynamicArray.push_len]
    simp only [List.length_cons]
    omega

theorem DynamicArray.extend_append (s : DynamicArray) (vs : List Int)
    (v : Int) : s.extend (vs ++ [v]) = (s.extend vs).push v := by
  simp [DynamicArray.extend]

theorem lenInv_push {s : DynamicArray} (hs : LenInv s) (v : Int) :
    LenInv (s.push v) := by
  have hlen := DynamicArray.push_len s v
  have hcap := DynamicArray.push_capacity s v
  unfold LenInv at *
  rw [hlen, hcap]
  split
  · split <;> omega
  · omega

theorem lenInv_applyOp {s : DynamicArray} (hs : LenInv s) (op : Op) :
    LenInv (applyOp s op) := by
  cases op with
  | newOp => simp [applyOp, DynamicArray.new, LenInv]
  | withCapacity n =>
    simp only [applyOp, DynamicArray.withCapacity]
    split <;> simp [DynamicArray.new, LenInv]
  | push v => exact lenInv_push hs v
  | pop =>
    simp only [applyOp, DynamicArray.pop]
    split
    · exact hs
    · unfold LenInv at *
      simp only [List.length_dropLast]
      omega
  | get i => exact hs
  | getMut i => exact hs
  | clear => simp [applyOp, DynamicArray.clear, LenInv]
  | shrinkToFit =>
    simp only [applyOp, DynamicArray.shrinkToFit]
    split
    · unfold LenInv at *
      simp only
      omega
    · split
      · unfold LenInv at *
        simp only
        omega
      · exact hs
  | extend vs =>
    unfold applyOp
    induction vs generalizing s with
    | nil => exact hs
    | cons v rest ih =>
      simpa [DynamicArray.extend] using ih (lenInv_push hs v)

theorem lenInv_runOps {s : DynamicArray} (hs : LenInv s) (ops : List Op) :
    LenInv (runOps s ops) := by
  induction ops generalizing s with
  | nil => exact hs
  | cons op rest ih =>
    simpa [runOps] using ih (lenInv_applyOp hs op)

/-!  Claim theorems. -/

/-- C1: `shrink_to_fit` follows the shrink policy exactly — if
`length == 0` and `capacity > 0` it deallocates entirely (capacity 0);
else if `length < capacity / 4` and `capacity > 4` it shrinks the capacity
to `max(capacity / 2, length)`; otherwise it is a no-op — and in every
case the length and the stored element values are unchanged (the data
list is carried through every branch verbatim). -/
theorem shrink_to_fit_policy (c : Nat) (d : List Int) :
    DynamicArray.shrinkToFit ⟨c, d⟩ =
      if d.length = 0 ∧ 0 < c then ⟨0, d⟩
      else if d.length < c / 4 ∧ 4 < c then ⟨max (c / 2) d.length, d⟩
      else ⟨c, d⟩ := by
  simp only [DynamicArray.shrinkToFit]
  split_ifs <;> first | rfl | (exfalso; omega)

/-- C2: starting from `new()` (capacity 0), after the pushes of any
nonempty value list `vs` (no intervening pops) the length is `vs.length`
and the capacity is the least power of two that is `≥ vs.length`; one
further push either keeps the capacity or doubles it. -/
theorem growth_doubling (vs : List Int) (hk : 1 ≤ vs.length) :
    (DynamicArray.new.extend vs).data.length = vs.length ∧
    IsLeast {m | (∃ j, m = 2 ^ j) ∧ vs.length ≤ m}
      (DynamicArray.new.extend vs).capacity ∧
    (∀ v, (DynamicArray.new.extend (vs ++ [v])).capacity =
            (DynamicArray.new.extend vs).capacity ∨
          (DynamicArray.new.extend (vs ++ [v])).capacity =
            2 * (DynamicArray.new.extend vs).capacity) := by
  have hlen : (DynamicArray.new.extend vs).data.length = vs.length := by
    rw [DynamicArray.extend_len]
    simp [DynamicArray.new]
  have hnew : GrowthInv DynamicArray.new := Or.inl ⟨rfl, rfl⟩
  have hinv : GrowthInv (DynamicArray.new.extend vs) :=
    growthInv_extend hnew vs
  rcases hinv with ⟨h0, _⟩ | ⟨⟨j, hj⟩, hle, hlt⟩
  · omega
  refine ⟨hlen, ⟨⟨⟨j, hj⟩, by omega⟩, ?_⟩, ?_⟩
  · rintro b ⟨⟨i, hi⟩, hkb⟩
    by_contra hbc
    push_neg at hbc
    have hij : i < j := by
      by_contra hij
      push_neg at hij
      have : 2 ^ j ≤ 2 ^ i := Nat.pow_le_pow_right (by omega) hij
      omega
    have h2b : 2 ^ (i + 1) ≤ 2 ^ j := Nat.pow_le_pow_right (by omega) (by omega)
    rw [pow_succ] at h2b
    omega
  · intro v
    rw [DynamicArray.extend_append, DynamicArray.push_capacity]
    split
    · rw [if_neg (by omega)]
      right; omega
    · left; rfl

/-- Witness for C2 at the concrete input `[5, 6, 7]` (three pushes yield
length 3 and capacity 4, the least power of two `≥ 3`). -/
theorem growth_doubling_witness :
    1 ≤ ([5, 6, 7] : List Int).length ∧
    ((DynamicArray.new.extend [5, 6, 7]).data.length =
        ([5, 6, 7] : List Int).length ∧
    IsLeast {m | (∃ j, m = 2 ^ j) ∧ ([5, 6, 7] : List Int).length ≤ m}
      (DynamicArray.new.extend [5, 6, 7]).capacity ∧
    (∀ v, (DynamicArray.new.extend ([5, 6, 7] ++ [v])).capacity =
            (DynamicArray.new.extend [5, 6, 7]).capacity ∨
          (DynamicArray.new.extend ([5, 6, 7] ++ [v])).capacity =
            2 * (DynamicArray.new.extend [5, 6, 7]).capacity)) :=
  ⟨by decide, growth_doubling [5, 6, 7] (by decide)⟩

/-- C6: `Array::push` on a full fixed-capacity container returns the
rejected value as an explicit `Err` and hands back the container with
capacity, length and every stored element untouched; when
`length < capacity` the push succeeds, appending the value. -/
theorem fixed_push_contract (a : Array) (v : Int) :
    (a.data.length = a.capacity → Array.push a v = (a, .error v)) ∧
    (a.data.length < a.capacity →
      (Array.push a v).2 = .ok () ∧
      (Array.push a v).1.capacity = a.capacity ∧
      (Array.push a v).1.data = a.data ++ [v]) := by
  constructor
  · intro hfull
    simp [Array.push, hfull]
  · intro hlt
    simp [Array.push, Nat.not_le.mpr hlt]

/-- Witness for C6: a full two-slot container rejects 9 unchanged, and a
container with one free slot accepts it. -/
theorem fixed_push_contract_witness :
    ((Array.mk 2 [1, 2]).data.length = (Array.mk 2 [1, 2]).capacity ∧
      Array.push (Array.mk 2 [1, 2]) 9 = (Array.mk 2 [1, 2], .error 9)) ∧
    ((Array.mk 3 [1, 2]).data.length < (Array.mk 3 [1, 2]).capacity ∧
      ((Array.push (Array.mk 3 [1, 2]) 9).2 = .ok () ∧
        (Array.push (Array.mk 3 [1, 2]) 9).1.capacity =
          (Array.mk 3 [1, 2]).capacity ∧
        (Array.push (Array.mk 3 [1, 2]) 9).1.data =
          (Array.mk 3 [1, 2]).data ++ [9])) :=
  ⟨⟨by decide, (fixed_push_contract (Array.mk 2 [1, 2]) 9).1 (by decide)⟩,
   ⟨by decide, (fixed_push_contract (Array.mk 3 [1, 2]) 9).2 (by decide)⟩⟩

/-- C7: `Array::set(i, value)` panics exactly when `i >= length`;
otherwise it releases the previous occupant of slot `i` exactly once (the
dropped-value list is precisely the old occupant), writes the new value,
and leaves the capacity, the length and every other slot unchanged. -/
theorem set_contract (a : Array) (index : Nat) (value : Int) :
    (a.data.length ≤ index → Array.set a index value = .error ()) ∧
    (index < a.data.length →
      ∃ a' dropped, Array.set a index value = .ok (a', dropped) ∧
        dropped = [a.data.getD index 0] ∧
        a'.capacity = a.capacity ∧
        a'.data.length = a.data.length ∧
        a'.data[index]? = some value ∧
        ∀ j, j ≠ index → a'.data[j]? = a.data[j]?) := by
  constructor
  · intro hge
    simp [Array.set, Nat.not_lt.mpr hge]
  · intro hlt
    refine ⟨⟨a.capacity, a.data.set index value⟩, [a.data.getD index 0],
      by simp [Array.set, hlt], rfl, rfl, by simp, ?_, ?_⟩
    · simp [List.getElem?_set_self, hlt]
    · intro j hj
      simp [List.getElem?_set_ne (Ne.symm hj)]

/-- Witness for C7: setting slot 1 of `[10, 20, 30]` drops 20 once and
writes 25; setting slot 5 panics. -/
theorem set_contract_witness :
    ((Array.mk 5 [10, 20, 30]).data.length ≤ 5 ∧
      Array.set (Array.mk 5 [10, 20, 30]) 5 25 = .error ()) ∧
    (1 < (Array.mk 5 [10, 20, 30]).data.length ∧
      ∃ a' dropped,
        Array.set (Array.mk 5 [10, 20, 30]) 1 25 = .ok (a', dropped) ∧
        dropped = [(Array.mk 5 [10, 20, 30]).data.getD 1 0] ∧
        a'.capacity = (Array.mk 5 [10, 20, 30]).capacity ∧
        a'.data.length = (Array.mk 5 [10, 20, 30]).data.length ∧
        a'.data[1]? = some 25 ∧
        ∀ j, j ≠ 1 → a'.data[j]? = (Array.mk 5 [10, 20, 30]).data[j]?) :=
  ⟨⟨by decide, (set_contract (Array.mk 5 [10, 20, 30]) 5 25).1 (by decide)⟩,
   ⟨by decide, (set_contract (Array.mk 5 [10, 20, 30]) 1 25).2 (by decide)⟩⟩

/-- C8: for every finite sequence over the public operation alphabet,
starting from `new()`, the invariant `length ≤ capacity` holds after the
run (and hence after every prefix, each being a run itself); moreover
`push` never reports failure — it is a total operation that always
appends its value. -/
theorem capacity_ge_length_invariant :
    (∀ ops : List Op,
      (runOps DynamicArray.new ops).data.length ≤
        (runOps DynamicArray.new ops).capacity) ∧
    (∀ (s : DynamicArray) (v : Int), (s.push v).data = s.data ++ [v]) :=
  ⟨fun ops => lenInv_runOps (by simp [LenInv, DynamicArray.new]) ops,
   DynamicArray.push_data⟩

/-- C10 counterexample: `Array::from_slice(&[1], 0)` does *not* panic —
the oversize check `slice.len() > capacity` fires first and returns the
"too large" absence outcome `None`. -/
theorem from_slice_zero_not_always_panic :
    Array.fromSlice [1] 0 = .ok none := rfl

/-- C10 (amended): with capacity 0, `Array::from_slice` panics exactly for
the empty slice (whose length does not exceed 0, so construction reaches
the panicking `Array::new(0)`); every nonempty slice instead trips the
size check and returns the "too large" absence outcome `None`. -/
theorem from_slice_zero_capacity (slice : List Int) :
    Array.fromSlice slice 0 =
      if slice.length = 0 then .error () else .ok none := by
  cases slice with
  | nil => rfl
  | cons x rest => simp [Array.fromSlice]

/-- Sorted lists have monotone (optional) indexed access. -/
theorem sorted_le_of_get? {xs : List Int} (hs : xs.Sorted (· ≤ ·))
    {i j : Nat} {u v : Int} (hij : i ≤ j)
    (hu : xs[i]? = some u) (hv : xs[j]? = some v) : u ≤ v := by
  obtain ⟨hi, hu⟩ := List.getElem?_eq_some.mp hu
  obtain ⟨hj, hv⟩ := List.getElem?_eq_some.mp hv
  rcases Nat.eq_or_lt_of_le hij with rfl | hlt
  · rw [← hu, ← hv]
  · rw [← hu, ← hv]
    exact List.pairwise_iff_getElem.mp hs i j hi hj hlt

/-- An in-bounds index always has an element. -/
theorem get?_isSome_of_lt {xs : List Int} {i : Nat} (hi : i < xs.length) :
    ∃ v, xs[i]? = some v :=
  ⟨_, List.getElem?_eq_getElem hi⟩

/-- `bsLoop` soundness: a returned index holds the target. -/
theorem bsLoop_some (xs : List Int) (target : Int) (low high i : Nat)
    (h : bsLoop xs target low high = some i) : xs[i]? = some target := by
  induction low, high using bsLoop.induct xs target with
  | case1 low high hle hmid =>
    rw [bsLoop] at h
    simp [hle, hmid] at h
  | case2 low high hle hmid =>
    rw [bsLoop] at h
    simp [hle, hmid] at h
    exact h ▸ hmid
  | case3 low high hle v hmid hne hlt ih =>
    rw [bsLoop] at h
    simp [hle, hmid, hne, hlt] at h
    exact ih h
  | case4 low high hle v hmid hne hnlt h0 =>
    rw [bsLoop] at h
    rw [h0] at hmid
    simp [hle, hmid, hne, hnlt, h0] at h
  | case5 low high hle v hmid hne hnlt h0 ih =>
    rw [bsLoop] at h
    simp [hle, hmid, hne, hnlt, h0] at h
    exact ih h
  | case6 low high hnle =>
    rw [bsLoop] at h
    simp [hnle] at h

/-- `bsLoop` completeness: if some index of the window holds the target,
the loop returns an index. -/
theorem bsLoop_isSome (xs : List Int) (target : Int) {j : Nat}
    (hs : xs.Sorted (· ≤ ·)) (hj : xs[j]? = some target)
    (low high : Nat) (hh : high < xs.length)
    (hlo : low ≤ j) (hhi : j ≤ high) :
    ∃ i, bsLoop xs target low high = some i := by
  revert hh hlo hhi
  induction low, high using bsLoop.induct xs target with
  | case1 low high hle hmid =>
    intro hh hlo hhi
    have := List.getElem?_eq_none_iff.mp hmid
    omega
  | case2 low high hle hmid =>
    intro hh hlo hhi
    refine ⟨low + (high - low) / 2, ?_⟩
    rw [bsLoop]
    simp [hle, hmid]
  | case3 low high hle v hmid hne hlt ih =>
    intro hh hlo hhi
    have hjgt : low + (high - low) / 2 < j := by
      by_contra hc
      push_neg at hc
      have := sorted_le_of_get? hs hc hj hmid
      omega
    obtain ⟨i, hi⟩ := ih hh (by omega) hhi
    refine ⟨i, ?_⟩
    rw [bsLoop]
    simpa [hle, hmid, hne, hlt] using hi
  | case4 low high hle v hmid hne hnlt h0 =>
    intro hh hlo hhi
    have hvt : target < v := by
      rcases lt_or_eq_of_le (not_lt.mp hnlt) with h | h
      · exact h
      · exact absurd h.symm hne
    have hjlt : j < low + (high - low) / 2 := by
      by_contra hc
      push_neg at hc
      have := sorted_le_of_get? hs hc hmid hj
      omega
    omega
  | case5 low high hle v hmid hne hnlt h0 ih =>
    intro hh hlo hhi
    have hvt : target < v := by
      rcases lt_or_eq_of_le (not_lt.mp hnlt) with h | h
      · exact h
      · exact absurd h.symm hne
    have hjlt : j < low + (high - low) / 2 := by
      by_contra hc
      push_neg at hc
      have := sorted_le_of_get? hs hc hmid hj
      omega
    obtain ⟨i, hi⟩ := ih (by omega) hlo (by omega)
    refine ⟨i, ?_⟩
    rw [bsLoop]
    simpa [hle, hmid, hne, hnlt, h0] using hi
  | case6 low high hnle =>
    intro hh hlo hhi
    omega


/-- `bsFirstLoop` returns the minimal occurrence: given the window/result
invariant, the loop ends at `some m` for the leftmost index `m` holding
the target. -/
theorem bsFirstLoop_min (xs : List Int) (target : Int)
    (hs : xs.Sorted (· ≤ ·)) {m : Nat}
    (hm : xs[m]? = some target)
    (hmin : ∀ j, j < m → xs[j]? ≠ some target) :
    ∀ low high result, high < xs.length →
    ((low ≤ m ∧ m ≤ high) ∨
      (result = some m ∧ ∀ j, low ≤ j → j ≤ high → xs[j]? ≠ some target)) →
    bsFirstLoop xs target low high result = some m := by
  intro low high result
  revert low high result
  intro low high result hh hinv
  revert hh hinv
  induction low, high, result using bsFirstLoop.induct xs target with
  | case1 low high result hle hmid =>
    intro hh hinv
    have := List.getElem?_eq_none_iff.mp hmid
    omega
  | case2 low high result hle h0 hmid =>
    intro hh hinv
    rcases hinv with ⟨hlo, hhi⟩ | ⟨hres, hwin⟩
    · have hmle : m ≤ low + (high - low) / 2 := by
        by_contra hc
        push_neg at hc
        exact hmin _ hc hmid
      rw [bsFirstLoop, dif_pos hle, hmid]
      simp [h0]
      omega
    · exact absurd hmid (hwin _ (by omega) (by omega))
  | case3 low high result hle h0 hmid ih =>
    intro hh hinv
    rcases hinv with ⟨hlo, hhi⟩ | ⟨hres, hwin⟩
    · have hmle : m ≤ low + (high - low) / 2 := by
        by_contra hc
        push_neg at hc
        exact hmin _ hc hmid
      rw [bsFirstLoop]
      simp only [hle, h0]
      simp [hmid, h0]
      apply ih (by omega)
      rcases Nat.eq_or_lt_of_le hmle with heq | hlt
      · right
        refine ⟨by rw [heq], ?_⟩
        intro j hj1 hj2 hjt
        have : j < m := by omega
        exact hmin _ this hjt
      · left
        omega
    · exact absurd hmid (hwin _ (by omega) (by omega))
  | case4 low high result hle v hmid hne hlt ih =>
    intro hh hinv
    rw [bsFirstLoop]
    simp [hle, hmid, hne, hlt]
    apply ih hh
    rcases hinv with ⟨hlo, hhi⟩ | ⟨hres, hwin⟩
    · left
      have : low + (high - low) / 2 < m := by
        by_contra hc
        push_neg at hc
        have := sorted_le_of_get? hs hc hm hmid
        omega
      omega
    · right
      exact ⟨hres, fun j hj1 hj2 => hwin j (by omega) hj2⟩
  | case5 low high result hle v hmid hne hnlt h0 =>
    intro hh hinv
    have hvt : target < v := by
      rcases lt_or_eq_of_le (not_lt.mp hnlt) with h | h
      · exact h
      · exact absurd h.symm hne
    rw [bsFirstLoop, dif_pos hle, hmid]
    simp [hne, hnlt, h0]
    rcases hinv with ⟨hlo, hhi⟩ | ⟨hres, hwin⟩
    · have : m < low + (high - low) / 2 := by
        by_contra hc
        push_neg at hc
        have := sorted_le_of_get? hs hc hmid hm
        omega
      omega
    · exact hres
  | case6 low high result hle v hmid hne hnlt h0 ih =>
    intro hh hinv
    have hvt : target < v := by
      rcases lt_or_eq_of_le (not_lt.mp hnlt) with h | h
      · exact h
      · exact absurd h.symm hne
    rw [bsFirstLoop]
    simp [hle, hmid, hne, hnlt, h0]
    apply ih (by omega)
    rcases hinv with ⟨hlo, hhi⟩ | ⟨hres, hwin⟩
    · left
      have : m < low + (high - low) / 2 := by
        by_contra hc
        push_neg at hc
        have := sorted_le_of_get? hs hc hmid hm
        omega
      omega
    · right
      exact ⟨hres, fun j hj1 hj2 => hwin j hj1 (by omega)⟩
  | case7 low high result hnle =>
    intro hh hinv
    rcases hinv with ⟨hlo, hhi⟩ | ⟨hres, _⟩
    · omega
    · rw [bsFirstLoop]
      simp [hnle]
      exact hres


/-- `bsLastLoop` returns the maximal occurrence: given the window/result
invariant, the loop ends at `some m` for the rightmost index `m` holding
the target. -/
theorem bsLastLoop_max (xs : List Int) (target : Int)
    (hs : xs.Sorted (· ≤ ·)) {m : Nat}
    (hm : xs[m]? = some target)
    (hmax : ∀ j, m < j → xs[j]? ≠ some target) :
    ∀ low high result, high < xs.length →
    ((low ≤ m ∧ m ≤ high) ∨
      (result = some m ∧ ∀ j, low ≤ j → j ≤ high → xs[j]? ≠ some target)) →
    bsLastLoop xs target low high result = some m := by
  intro low high result
  revert low high result
  intro low high result hh hinv
  revert hh hinv
  induction low, high, result using bsLastLoop.induct xs target with
  | case1 low high result hle hmid =>
    intro hh hinv
    have := List.getElem?_eq_none_iff.mp hmid
    omega
  | case2 low high result hle hmid ih =>
    intro hh hinv
    rcases hinv with ⟨hlo, hhi⟩ | ⟨hres, hwin⟩
    · have hmge : low + (high - low) / 2 ≤ m := by
        by_contra hc
        push_neg at hc
        exact hmax _ hc hmid
      rw [bsLastLoop, dif_pos hle, hmid]
      simp only [if_pos rfl]
      apply ih hh
      rcases Nat.eq_or_lt_of_le hmge with heq | hlt
      · right
        refine ⟨by rw [heq], ?_⟩
        intro j hj1 hj2 hjt
        have : m < j := by omega
        exact hmax _ this hjt
      · left
        omega
    · exact absurd hmid (hwin _ (by omega) (by omega))
  | case3 low high result hle v hmid hne hlt ih =>
    intro hh hinv
    rw [bsLastLoop, dif_pos hle, hmid]
    simp only [if_neg hne, if_pos hlt]
    apply ih hh
    rcases hinv with ⟨hlo, hhi⟩ | ⟨hres, hwin⟩
    · left
      have : low + (high - low) / 2 < m := by
        by_contra hc
        push_neg at hc
        have := sorted_le_of_get? hs hc hm hmid
        omega
      omega
    · right
      exact ⟨hres, fun j hj1 hj2 => hwin j (by omega) hj2⟩
  | case4 low high result hle v hmid hne hnlt h0 =>
    intro hh hinv
    have hvt : target < v := by
      rcases lt_or_eq_of_le (not_lt.mp hnlt) with h | h
      · exact h
      · exact absurd h.symm hne
    rw [bsLastLoop, dif_pos hle, hmid]
    simp only [if_neg hne, if_neg hnlt, if_pos h0]
    rcases hinv with ⟨hlo, hhi⟩ | ⟨hres, hwin⟩
    · have : m < low + (high - low) / 2 := by
        by_contra hc
        push_neg at hc
        have := sorted_le_of_get? hs hc hmid hm
        omega
      omega
    · exact hres
  | case5 low high result hle v hmid hne hnlt h0 ih =>
    intro hh hinv
    have hvt : target < v := by
      rcases lt_or_eq_of_le (not_lt.mp hnlt) with h | h
      · exact h
      · exact absurd h.symm hne
    rw [bsLastLoop, dif_pos hle, hmid]
    simp only [if_neg hne, if_neg hnlt, if_neg h0]
    apply ih (by omega)
    rcases hinv with ⟨hlo, hhi⟩ | ⟨hres, hwin⟩
    · left
      have : m < low + (high - low) / 2 := by
        by_contra hc
        push_neg at hc
        have := sorted_le_of_get? hs hc hmid hm
        omega
      omega
    · right
      exact ⟨hres, fun j hj1 hj2 => hwin j hj1 (by omega)⟩
  | case6 low high result hnle =>
    intro hh hinv
    rcases hinv with ⟨hlo, hhi⟩ | ⟨hres, _⟩
    · omega
    · rw [bsLastLoop]
      simp [hnle]
      exact hres

/-- `ipLoop` computes the boundary between the strictly-smaller prefix and
the not-smaller suffix. -/
theorem ipLoop_spec (xs : List Int) (target : Int)
    (hs : xs.Sorted (· ≤ ·)) :
    ∀ low high, low ≤ high → high ≤ xs.length →
    (∀ j, j < low → ∀ v, xs[j]? = some v → v < target) →
    (∀ j, high ≤ j → ∀ v, xs[j]? = some v → target ≤ v) →
    low ≤ ipLoop xs target low high ∧ ipLoop xs target low high ≤ high ∧
    (∀ j, j < ipLoop xs target low high → ∀ v, xs[j]? = some v →
      v < target) ∧
    (∀ j, ipLoop xs target low high ≤ j → ∀ v, xs[j]? = some v →
      target ≤ v) := by
  intro low high
  revert low high
  intro low high hlh hhn hpre hsuf
  revert hlh hhn hpre hsuf
  induction low, high using ipLoop.induct xs target with
  | case1 low high hlt v hmid hv ih =>
    intro hlh hhn hpre hsuf
    have hmidlt : low + (high - low) / 2 < high := by omega
    have hres := ih (by omega) hhn ?hpre hsuf
    case hpre =>
      intro j hj w hw
      rcases Nat.lt_or_ge j low with hc | hc
      · exact hpre j hc w hw
      · calc w ≤ v := sorted_le_of_get? hs (by omega) hw hmid
          _ < target := hv
    rw [ipLoop, dif_pos hlt, hmid]
    simp only [if_pos hv]
    exact ⟨by omega, by omega, hres.2.2.1, hres.2.2.2⟩
  | case2 low high hlt v hmid hnv ih =>
    intro hlh hhn hpre hsuf
    have hmidlt : low + (high - low) / 2 < high := by omega
    have hres := ih (by omega) (by omega) hpre ?hsuf
    case hsuf =>
      intro j hj w hw
      calc target ≤ v := not_lt.mp hnv
        _ ≤ w := sorted_le_of_get? hs hj hmid hw
    rw [ipLoop, dif_pos hlt, hmid]
    simp only [if_neg hnv]
    exact ⟨hres.1, by omega, hres.2.2.1, hres.2.2.2⟩
  | case3 low high hlt hmid ih =>
    intro hlh hhn hpre hsuf
    have := List.getElem?_eq_none_iff.mp hmid
    omega
  | case4 low high hnlt =>
    intro hlh hhn hpre hsuf
    have : low = high := by omega
    rw [ipLoop]
    simp only [dif_neg hnlt]
    refine ⟨le_refl low, by omega, fun j hj w hw => hpre j hj w hw, ?_⟩
    intro j hj w hw
    exact hsuf j (by omega) w hw


/-- C4: for a sorted sequence and a present target, `binary_search`
returns an index holding the target, `binary_search_first` the leftmost
such index and `binary_search_last` the rightmost such index. -/
theorem binary_search_round_trip (xs : List Int) (target : Int)
    (hs : xs.Sorted (· ≤ ·)) (hmem : target ∈ xs) :
    (∃ i, binarySearch xs target = some i ∧ xs[i]? = some target) ∧
    (∃ m, binarySearchFirst xs target = some m ∧ xs[m]? = some target ∧
      ∀ j, j < m → xs[j]? ≠ some target) ∧
    (∃ m, binarySearchLast xs target = some m ∧ xs[m]? = some target ∧
      ∀ j, m < j → xs[j]? ≠ some target) := by
  obtain ⟨j0, hj0lt, hj0⟩ := List.mem_iff_getElem.mp hmem
  have hj0some : xs[j0]? = some target := List.getElem?_eq_some.mpr ⟨hj0lt, hj0⟩
  have hn : xs.length ≠ 0 := by omega
  refine ⟨?_, ?_, ?_⟩
  · obtain ⟨i, hi⟩ := bsLoop_isSome xs target hs hj0some 0 (xs.length - 1)
      (by omega) (by omega) (by omega)
    refine ⟨i, ?_, bsLoop_some xs target 0 (xs.length - 1) i hi⟩
    rw [binarySearch, if_neg hn]
    exact hi
  · have hex : ∃ j, xs[j]? = some target := ⟨j0, hj0some⟩
    have hspec := Nat.find_spec hex
    have hmlt : Nat.find hex < xs.length := by
      obtain ⟨h, _⟩ := List.getElem?_eq_some.mp hspec
      exact h
    refine ⟨Nat.find hex, ?_, hspec, fun j hj => Nat.find_min hex hj⟩
    rw [binarySearchFirst, if_neg hn]
    exact bsFirstLoop_min xs target hs hspec
      (fun j hj => Nat.find_min hex hj) 0 (xs.length - 1) none
      (by omega) (Or.inl ⟨by omega, by omega⟩)
  · set P : Nat → Prop := fun j => xs[j]? = some target with hP
    have hdec : DecidablePred P := fun j => by
      rw [hP]
      infer_instance
    have hj0le : j0 ≤ xs.length - 1 := by omega
    have hspec : P (Nat.findGreatest P (xs.length - 1)) :=
      Nat.findGreatest_spec hj0le hj0some
    have hmax : ∀ j, Nat.findGreatest P (xs.length - 1) < j →
        xs[j]? ≠ some target := by
      intro j hj
      rcases Nat.lt_or_ge j xs.length with hc | hc
      · exact Nat.findGreatest_is_greatest hj (by omega)
      · intro hcon
        obtain ⟨h, _⟩ := List.getElem?_eq_some.mp hcon
        omega
    refine ⟨Nat.findGreatest P (xs.length - 1), ?_, hspec, hmax⟩
    rw [binarySearchLast, if_neg hn]
    exact bsLastLoop_max xs target hs hspec hmax 0 (xs.length - 1) none
      (by omega) (Or.inl ⟨by omega, Nat.findGreatest_le _⟩)

/-- Witness for C4 at `[1, 2, 2, 2, 3, 4, 5]`, target 2 (first
occurrence index 1, last occurrence index 3). -/
theorem binary_search_round_trip_witness :
    (([1, 2, 2, 2, 3, 4, 5] : List Int).Sorted (· ≤ ·) ∧
      (2 : Int) ∈ ([1, 2, 2, 2, 3, 4, 5] : List Int)) ∧
    ((∃ i, binarySearch [1, 2, 2, 2, 3, 4, 5] 2 = some i ∧
        ([1, 2, 2, 2, 3, 4, 5] : List Int)[i]? = some 2) ∧
    (∃ m, binarySearchFirst [1, 2, 2, 2, 3, 4, 5] 2 = some m ∧
        ([1, 2, 2, 2, 3, 4, 5] : List Int)[m]? = some 2 ∧
        ∀ j, j < m → ([1, 2, 2, 2, 3, 4, 5] : List Int)[j]? ≠ some 2) ∧
    (∃ m, binarySearchLast [1, 2, 2, 2, 3, 4, 5] 2 = some m ∧
        ([1, 2, 2, 2, 3, 4, 5] : List Int)[m]? = some 2 ∧
        ∀ j, m < j → ([1, 2, 2, 2, 3, 4, 5] : List Int)[j]? ≠ some 2)) :=
  ⟨⟨by decide, by decide⟩,
    binary_search_round_trip [1, 2, 2, 2, 3, 4, 5] 2 (by decide) (by decide)⟩

/-- C5: on a sorted sequence, `binary_search_insertion_point` returns the
first index whose element is not less than the target (`n` when all
elements are smaller), which for a present target is the position of its
first occurrence. -/
theorem insertion_point_spec (xs : List Int) (target : Int)
    (hs : xs.Sorted (· ≤ ·)) :
    binarySearchInsertionPoint xs target ≤ xs.length ∧
    (∀ j, j < binarySearchInsertionPoint xs target →
      ∀ v, xs[j]? = some v → v < target) ∧
    (∀ j, binarySearchInsertionPoint xs target ≤ j →
      ∀ v, xs[j]? = some v → target ≤ v) ∧
    (∀ m, xs[m]? = some target → (∀ j, j < m → xs[j]? ≠ some target) →
      binarySearchInsertionPoint xs target = m) := by
  by_cases hn : xs.length = 0
  · rw [binarySearchInsertionPoint, if_pos hn]
    refine ⟨by omega, by omega, ?_, ?_⟩
    · intro j hj v hv
      obtain ⟨h, _⟩ := List.getElem?_eq_some.mp hv
      omega
    · intro m hm _
      obtain ⟨h, _⟩ := List.getElem?_eq_some.mp hm
      omega
  · have hspec := ipLoop_spec xs target hs 0 xs.length (by omega)
      (le_refl _) (by omega)
      (by
        intro j hj v hv
        obtain ⟨h, _⟩ := List.getElem?_eq_some.mp hv
        omega)
    rw [binarySearchInsertionPoint, if_neg hn]
    obtain ⟨h0, hle, hpre, hsuf⟩ := hspec
    refine ⟨hle, hpre, hsuf, ?_⟩
    intro m hm hmin
    by_contra hne
    rcases Nat.lt_or_ge m (ipLoop xs target 0 xs.length) with hc | hc
    · have := hpre m hc target hm
      omega
    · have hc2 : ipLoop xs target 0 xs.length < m := by omega
      have hmlt : m < xs.length := (List.getElem?_eq_some.mp hm).1
      obtain ⟨v, hv⟩ := get?_isSome_of_lt
        (show ipLoop xs target 0 xs.length < xs.length by omega)
      have h1 : target ≤ v := hsuf _ (le_refl _) v hv
      have h2 : v ≤ target := sorted_le_of_get? hs (by omega) hv hm
      have : v = target := le_antisymm h2 h1
      exact hmin _ hc2 (this ▸ hv)

/-- Witness for C5 at `[1, 3, 5, 7, 9]`, target 4. -/
theorem insertion_point_spec_witness :
    ([1, 3, 5, 7, 9] : List Int).Sorted (· ≤ ·) ∧
    (binarySearchInsertionPoint [1, 3, 5, 7, 9] 4 ≤
        ([1, 3, 5, 7, 9] : List Int).length ∧
    (∀ j, j < binarySearchInsertionPoint [1, 3, 5, 7, 9] 4 →
      ∀ v, ([1, 3, 5, 7, 9] : List Int)[j]? = some v → v < 4) ∧
    (∀ j, binarySearchInsertionPoint [1, 3, 5, 7, 9] 4 ≤ j →
      ∀ v, ([1, 3, 5, 7, 9] : List Int)[j]? = some v → 4 ≤ v) ∧
    (∀ m, ([1, 3, 5, 7, 9] : List Int)[m]? = some 4 →
      (∀ j, j < m → ([1, 3, 5, 7, 9] : List Int)[j]? ≠ some 4) →
      binarySearchInsertionPoint [1, 3, 5, 7, 9] 4 = m)) :=
  ⟨by decide, insertion_point_spec [1, 3, 5, 7, 9] 4 (by decide)⟩

/-- In-bounds `getD` agrees with optional access. -/
theorem getD_get? {xs : List Int} {i : Nat} (hi : i < xs.length) :
    xs[i]? = some (xs.getD i 0) := by
  simp [List.getD_eq_getElem?_getD, List.getElem?_eq_getElem hi]

/-- Strictly sorted lists have injective value-to-index lookup. -/
theorem sorted_lt_unique {xs : List Int} (hst : xs.Sorted (· < ·))
    {i j : Nat} {v : Int} (hi : xs[i]? = some v) (hj : xs[j]? = some v) :
    i = j := by
  obtain ⟨hi1, hi2⟩ := List.getElem?_eq_some.mp hi
  obtain ⟨hj1, hj2⟩ := List.getElem?_eq_some.mp hj
  rcases lt_trichotomy i j with h | h | h
  · have := List.pairwise_iff_getElem.mp hst i j hi1 hj1 h
    rw [hi2, hj2] at this
    exact absurd this (lt_irrefl v)
  · exact h
  · have := List.pairwise_iff_getElem.mp hst j i hj1 hi1 h
    rw [hi2, hj2] at this
    exact absurd this (lt_irrefl v)

/-- `optimal_jump_size` stays within `[1, n]` for nonempty containers. -/
theorem optimalJumpSize_bounds {n : Nat} (hn : n ≠ 0) :
    1 ≤ optimalJumpSize n ∧ optimalJumpSize n ≤ n := by
  rw [optimalJumpSize, if_neg hn]
  refine ⟨le_max_right _ _, ?_⟩
  rcases Nat.eq_or_lt_of_le (show 1 ≤ n by omega) with h | h
  · rw [← h]
    decide
  · have hs := Nat.sqrt_lt_self h
    apply max_le _ (by omega)
    split
    · exact Nat.le_of_lt hs
    · omega

/-- The jump phase never panics and establishes the linear-scan
precondition whenever `jump_size <= n`: every index below the returned
`prev` holds a value smaller than the target, and the returned `curr`
either holds a value not smaller than the target or is the last index. -/
theorem jsLoop_spec (xs : List Int) (target : Int) (jumpSize : Nat)
    (hj : 0 < jumpSize) (hs : xs.Sorted (· ≤ ·)) (hjn : jumpSize ≤ xs.length) :
    ∀ prev curr, curr < xs.length → prev ≤ curr + 1 →
    (∀ i, i < prev → ∀ v, xs[i]? = some v → v < target) →
    ∃ p c, jsLoop xs target jumpSize hj prev curr = .ok (p, c) ∧
      c < xs.length ∧ p ≤ c + 1 ∧
      (∀ i, i < p → ∀ v, xs[i]? = some v → v < target) ∧
      ((∀ v, xs[c]? = some v → target ≤ v) ∨ c = xs.length - 1) := by
  intro prev curr
  revert prev curr
  intro prev curr hcn hpc hpre
  revert hcn hpc hpre
  induction prev, curr using jsLoop.induct xs target jumpSize hj with
  | case1 prev curr hcond hmin hlt =>
    intro hcn hpc hpre
    omega
  | case2 prev curr hcond hmin hnlt hbrk =>
    intro hcn hpc hpre
    refine ⟨curr + 1, (curr + jumpSize) ⊓ (xs.length - 1), ?_, ?_, ?_, ?_, ?_⟩
    · rw [jsLoop, dif_pos hcond, if_pos hmin, if_neg hnlt, if_pos hbrk]
    · omega
    · omega
    · intro i hi v hv
      rcases Nat.lt_or_ge i prev with hc | hc
      · exact hpre i hc v hv
      · have hcv : xs[curr]? = some (xs.getD curr 0) := getD_get? hcond.1
        calc v ≤ xs.getD curr 0 := sorted_le_of_get? hs (by omega) hv hcv
          _ < target := hcond.2
    · right
      omega
  | case3 prev curr hcond hmin hnlt hnbrk ih =>
    intro hcn hpc hpre
    have hnext : (curr + jumpSize) ⊓ (xs.length - 1) < xs.length := by omega
    have hpre' : ∀ i, i < curr + 1 → ∀ v, xs[i]? = some v → v < target := by
      intro i hi v hv
      rcases Nat.lt_or_ge i prev with hc | hc
      · exact hpre i hc v hv
      · have hcv : xs[curr]? = some (xs.getD curr 0) := getD_get? hcond.1
        calc v ≤ xs.getD curr 0 := sorted_le_of_get? hs (by omega) hv hcv
          _ < target := hcond.2
    obtain ⟨p, c, heq, hrest⟩ := ih hnext (by omega) hpre'
    refine ⟨p, c, ?_, hrest⟩
    rw [jsLoop, dif_pos hcond, if_pos hmin, if_neg hnlt, if_neg hnbrk]
    exact heq
  | case4 prev curr hcond hnmin ih =>
    intro hcn hpc hpre
    have hnext : (curr + jumpSize) ⊓ (xs.length - 1) < xs.length := by omega
    have hpre' : ∀ i, i < curr + 1 → ∀ v, xs[i]? = some v → v < target := by
      intro i hi v hv
      rcases Nat.lt_or_ge i prev with hc | hc
      · exact hpre i hc v hv
      · have hcv : xs[curr]? = some (xs.getD curr 0) := getD_get? hcond.1
        calc v ≤ xs.getD curr 0 := sorted_le_of_get? hs (by omega) hv hcv
          _ < target := hcond.2
    obtain ⟨p, c, heq, hrest⟩ := ih hnext (by omega) hpre'
    refine ⟨p, c, ?_, hrest⟩
    rw [jsLoop, dif_pos hcond, if_neg hnmin]
    exact heq
  | case5 prev curr hncond =>
    intro hcn hpc hpre
    refine ⟨prev, curr, ?_, hcn, hpc, hpre, ?_⟩
    · rw [jsLoop, dif_neg hncond]
    · left
      intro v hv
      have hcv : xs[curr]? = some (xs.getD curr 0) := getD_get? hcn
      rw [hcv] at hv
      obtain rfl := Option.some.inj hv
      have : ¬ xs.getD curr 0 < target := by
        intro hc
        exact hncond ⟨hcn, hc⟩
      omega


/-- Linear-scan soundness: a returned index holds the target. -/
theorem linLoop_some (xs : List Int) (target : Int) (curr : Nat) :
    ∀ prev i, linLoop xs target curr prev = some i →
      xs[i]? = some target := by
  intro prev
  induction prev using linLoop.induct xs target curr with
  | case1 x hx hmid =>
    intro i h
    rw [linLoop, dif_pos hx, hmid] at h
    exact absurd h (by simp)
  | case2 x hx hmid =>
    intro i h
    rw [linLoop, dif_pos hx, hmid] at h
    simp only [if_pos rfl] at h
    obtain rfl := Option.some.inj h
    exact hmid
  | case3 x hx v hmid hne hgt =>
    intro i h
    rw [linLoop, dif_pos hx, hmid] at h
    simp only [if_neg hne, if_pos hgt] at h
    exact absurd h (by simp)
  | case4 x hx v hmid hne hngt ih =>
    intro i h
    rw [linLoop, dif_pos hx, hmid] at h
    simp only [if_neg hne, if_neg hngt] at h
    exact ih i h
  | case5 x hx =>
    intro i h
    rw [linLoop, dif_neg hx] at h
    exact absurd h (by simp)

/-- Linear-scan completeness: starting at or before the first occurrence
`m` (with `m` inside the window), the scan returns exactly `m`. -/
theorem linLoop_finds (xs : List Int) (target : Int)
    (hs : xs.Sorted (· ≤ ·)) {m : Nat}
    (hm : xs[m]? = some target)
    (hmin : ∀ j, j < m → xs[j]? ≠ some target) (curr : Nat)
    (hmc : m ≤ curr) :
    ∀ prev, prev ≤ m → linLoop xs target curr prev = some m := by
  have hmlt : m < xs.length := (List.getElem?_eq_some.mp hm).1
  intro prev
  induction prev using linLoop.induct xs target curr with
  | case1 x hx hmid =>
    intro hxm
    have := List.getElem?_eq_none_iff.mp hmid
    omega
  | case2 x hx hmid =>
    intro hxm
    have hxm' : ¬ x < m := fun hc => hmin x hc hmid
    rw [linLoop, dif_pos hx, hmid]
    have hxe : x = m := by omega
    rw [hxe]
    simp
  | case3 x hx v hmid hne hgt =>
    intro hxm
    have hxm' : x < m := by
      rcases Nat.eq_or_lt_of_le hxm with h | h
      · rw [h] at hmid
        rw [hmid] at hm
        exact absurd (Option.some.inj hm) hne
      · exact h
    have := sorted_le_of_get? hs (le_of_lt hxm') hmid hm
    omega
  | case4 x hx v hmid hne hngt ih =>
    intro hxm
    have hxm' : x < m := by
      rcases Nat.eq_or_lt_of_le hxm with h | h
      · rw [h] at hmid
        rw [hmid] at hm
        exact absurd (Option.some.inj hm) hne
      · exact h
    rw [linLoop, dif_pos hx, hmid]
    simp only [if_neg hne, if_neg hngt]
    exact ih (by omega)
  | case5 x hx =>
    intro hxm
    exact absurd ⟨by omega, by omega⟩ hx

/-- `jump_search_with_size` with a jump size in `[1, n]` never panics:
for a present target it returns the first occurrence, for an absent
target it returns `None`. -/
theorem jumpSearchWithSize_finds (xs : List Int) (target : Int)
    (jumpSize : Nat) (hs : xs.Sorted (· ≤ ·)) (hj : 0 < jumpSize)
    (hjn : jumpSize ≤ xs.length) :
    (∀ m, xs[m]? = some target → (∀ j, j < m → xs[j]? ≠ some target) →
      jumpSearchWithSize xs target jumpSize = .ok (some m)) ∧
    ((∀ j : Nat, xs[j]? ≠ some target) →
      jumpSearchWithSize xs target jumpSize = .ok none) := by
  have hn : xs.length ≠ 0 := by omega
  have hguard : ¬(xs.length = 0 ∨ jumpSize = 0) := by omega
  have hinit : min jumpSize xs.length - 1 < xs.length := by omega
  obtain ⟨p, c, heq, hcn, hpc, hpre, hexit⟩ :=
    jsLoop_spec xs target jumpSize (by omega) hs hjn 0
      (min jumpSize xs.length - 1) hinit (by omega) (by omega)
  constructor
  · intro m hm hmin
    have hmlt : m < xs.length := (List.getElem?_eq_some.mp hm).1
    have hpm : p ≤ m := by
      by_contra hc
      push_neg at hc
      exact absurd (hpre m hc target hm) (lt_irrefl target)
    have hmc : m ≤ c := by
      rcases hexit with hval | hend
      · by_contra hcon
        push_neg at hcon
        obtain ⟨w, hw⟩ := get?_isSome_of_lt hcn
        have h1 : target ≤ w := hval w hw
        have h2 : w ≤ target := sorted_le_of_get? hs (by omega) hw hm
        have : w = target := le_antisymm h2 h1
        exact hmin c hcon (this ▸ hw)
      · omega
    rw [jumpSearchWithSize, dif_neg hguard, heq]
    show Except.ok (linLoop xs target c p) = Except.ok (some m)
    rw [linLoop_finds xs target hs hm hmin c hmc p hpm]
  · intro habs
    rw [jumpSearchWithSize, dif_neg hguard, heq]
    show Except.ok (linLoop xs target c p) = Except.ok none
    rcases hlin : linLoop xs target c p with _ | i
    · rfl
    · exact absurd (linLoop_some xs target c p i hlin) (habs i)


/-- C9: at `xs = [1]`, `target = 5`, `jump_size = 2` the block-advance
loop reaches its early-exit check with `jump_size > n`, and the `usize`
subtraction `n - jump_size` underflows: the claimed panic-free
termination fails (debug builds panic; in release builds the wrapped
subtraction makes the break unreachable and the loop never exits). -/
theorem jump_search_with_size_panics :
    jumpSearchWithSize [1] 5 2 = .error () := by
  have hg : ¬(([1] : List Int).length = 0 ∨ (2 : Nat) = 0) := by decide
  rw [jumpSearchWithSize, dif_neg hg]
  show (match jsLoop [1] 5 2 (by omega) 0 0 with
    | Except.error e => Except.error e
    | Except.ok (prev, curr) => Except.ok (linLoop [1] 5 curr prev)) =
    Except.error ()
  rw [jsLoop]
  norm_num

/-- C3 counterexample: on the sorted input `[2, 2, 2]` with target 2,
jump search returns index 0 while binary search returns index 1 — the
two algorithms do not agree on every index. -/
theorem jump_binary_disagree :
    jumpSearch [2, 2, 2] 2 = .ok (some 0) ∧
    binarySearch [2, 2, 2] 2 = some 1 := by
  constructor
  · have hsq : Nat.sqrt 3 = 1 := (Nat.eq_sqrt.mpr (by norm_num)).symm
    have ho : optimalJumpSize 3 = 2 := by norm_num [optimalJumpSize, hsq]
    have hg : ¬(([2, 2, 2] : List Int).length = 0 ∨ (2 : Nat) = 0) := by
      decide
    rw [jumpSearch]
    norm_num [ho]
    rw [jumpSearchWithSize, dif_neg hg]
    show (match jsLoop [2, 2, 2] 2 2 (by omega) 0 1 with
      | Except.error e => Except.error e
      | Except.ok (prev, curr) => Except.ok (linLoop [2, 2, 2] 2 curr prev)) =
      Except.ok (some 0)
    rw [jsLoop]
    norm_num
    rw [linLoop]
    norm_num
  · rw [binarySearch]
    norm_num
    rw [bsLoop]
    norm_num

/-- C3 (amended): on every ascending-sorted input the two searches agree
on whether the target is found (and any returned index holds the
target); when the input is strictly ascending — no duplicate values —
they agree on every index.  The original every-index claim fails on
duplicate runs, where the algorithms may stop at different members of
the run. -/
theorem jump_search_agrees_binary_search (xs : List Int) (target : Int)
    (hs : xs.Sorted (· ≤ ·)) :
    (∃ r, jumpSearch xs target = .ok r ∧
      (r.isSome ↔ (binarySearch xs target).isSome) ∧
      (∀ i, r = some i → xs[i]? = some target)) ∧
    (xs.Sorted (· < ·) → jumpSearch xs target = .ok (binarySearch xs target)) := by
  by_cases hn : xs.length = 0
  · have h1 : jumpSearch xs target = .ok none := by
      rw [jumpSearch, if_pos hn]
    have h2 : binarySearch xs target = none := by
      rw [binarySearch, if_pos hn]
    refine ⟨⟨none, h1, by rw [h2], by simp⟩, fun _ => by rw [h1, h2]⟩
  · obtain ⟨hj1, hjn⟩ := optimalJumpSize_bounds hn
    have hEq : jumpSearch xs target =
        jumpSearchWithSize xs target (optimalJumpSize xs.length) := by
      rw [jumpSearch, if_neg hn]
    have hfinds := jumpSearchWithSize_finds xs target
      (optimalJumpSize xs.length) hs (by omega) hjn
    by_cases hex : ∃ j : Nat, xs[j]? = some target
    · have hspec := Nat.find_spec hex
      have hminp : ∀ j, j < Nat.find hex → xs[j]? ≠ some target :=
        fun j hj => Nat.find_min hex hj
      have hjump : jumpSearch xs target = .ok (some (Nat.find hex)) := by
        rw [hEq]
        exact hfinds.1 (Nat.find hex) hspec hminp
      have hmlt : Nat.find hex < xs.length :=
        (List.getElem?_eq_some.mp hspec).1
      obtain ⟨i, hi⟩ := bsLoop_isSome xs target hs hspec 0 (xs.length - 1)
        (by omega) (by omega) (by omega)
      have hbs : binarySearch xs target = some i := by
        rw [binarySearch, if_neg hn]
        exact hi
      have hisound : xs[i]? = some target :=
        bsLoop_some xs target 0 (xs.length - 1) i hi
      refine ⟨⟨some (Nat.find hex), hjump, by rw [hbs]; simp, ?_⟩, ?_⟩
      · intro k hk
        obtain rfl := Option.some.inj hk
        exact hspec
      · intro hst
        have : i = Nat.find hex := sorted_lt_unique hst hisound hspec
        rw [hjump, hbs, this]
    · push_neg at hex
      have hjump : jumpSearch xs target = .ok none := by
        rw [hEq]
        exact hfinds.2 hex
      have hbs : binarySearch xs target = none := by
        rcases hb : binarySearch xs target with _ | i
        · rfl
        · rw [binarySearch, if_neg hn] at hb
          exact absurd (bsLoop_some xs target 0 (xs.length - 1) i hb)
            (hex i)
      refine ⟨⟨none, hjump, by rw [hbs], by simp⟩, fun _ => by rw [hjump, hbs]⟩

/-- Witness for the amended C3 at the strictly sorted input `[1, 3, 5]`
with target 3. -/
theorem jump_search_agrees_binary_search_witness :
    ([1, 3, 5] : List Int).Sorted (· ≤ ·) ∧
    ((∃ r, jumpSearch [1, 3, 5] 3 = .ok r ∧
      (r.isSome ↔ (binarySearch [1, 3, 5] 3).isSome) ∧
      (∀ i, r = some i → ([1, 3, 5] : List Int)[i]? = some 3)) ∧
    (([1, 3, 5] : List Int).Sorted (· < ·) →
      jumpSearch [1, 3, 5] 3 = .ok (binarySearch [1, 3, 5] 3))) :=
  ⟨by decide, jump_search_agrees_binary_search [1, 3, 5] 3 (by decide)⟩

end Arrays
